import Mathlib

/-!
# Verification of the bustub storage-engine core

Shallow embedding of the buffer pool manager (`buffer_pool_manager_instance.cpp`),
the LRU-K replacer (`lru_k_replacer.cpp`), and the B+-tree index
(`b_plus_tree.cpp`, `b_plus_tree_leaf_page.cpp`, `b_plus_tree_internal_page.cpp`).

Conventions used throughout the embedding:
* keys are `Int` (the instantiated comparators order `GenericKey` as a signed
  integer), record identifiers (RID) are `Nat`, page ids and frame ids are
  `Int` / `Nat`, `INVALID_PAGE_ID = -1`;
* a page's byte content is abstracted to a single `Int`; `ResetMemory`
  (zero-filling the bytes) writes `0`;
* C++ `std::map` / hash-table state is represented by association lists,
  and calls to the external disk manager are recorded in trace fields of the
  state so that "the code performs / does not perform this call" is provable.
-/

namespace Bustub

/-- The constant `INVALID_PAGE_ID` from the source. -/
def INVALID_PAGE_ID : Int := -1

/-! ## Association-list helpers (model of `std::map` / `ExtendibleHashTable`) -/

/-- Lookup in an association list (`map.find` / `ExtendibleHashTable::Find`). -/
def lookupA {κ α : Type} [DecidableEq κ] : List (κ × α) → κ → Option α
  | [], _ => none
  | (k, v) :: rest, key => if k = key then some v else lookupA rest key

/-- Overwrite-or-append update (`map[k] = v` / `ExtendibleHashTable::Insert`). -/
def insertA {κ α : Type} [DecidableEq κ] : List (κ × α) → κ → α → List (κ × α)
  | [], key, v => [(key, v)]
  | (k, w) :: rest, key, v =>
      if k = key then (k, v) :: rest else (k, w) :: insertA rest key v

/-- Erase a key (`map.erase` / `ExtendibleHashTable::Remove`). -/
def eraseA {κ α : Type} [DecidableEq κ] : List (κ × α) → κ → List (κ × α)
  | [], _ => []
  | (k, w) :: rest, key => if k = key then rest else (k, w) :: eraseA rest key

/-! ## Leaf page operations (`b_plus_tree_leaf_page.cpp`)

A leaf page's entry array is the list of its first `size` cells, each a
`(key, RID)` pair. -/

/-- One `(key, value)` slot of a leaf page (`MappingType` for leaves). -/
abbrev LeafEntry := Int × Nat

/-- Model of `BPlusTreeLeafPage::FindPos`: index returned by `std::lower_bound` over the
sorted entry array, i.e. the length of the maximal prefix of keys `< k`. -/
def leafFindPos (entries : List LeafEntry) (k : Int) : Nat :=
  (entries.takeWhile (fun e => e.1 < k)).length

/-- Model of `BPlusTreeLeafPage::Insert`: insert at the lower-bound position; a
duplicate key leaves the array untouched. -/
def leafInsert (entries : List LeafEntry) (k : Int) (v : Nat) : List LeafEntry :=
  let pos := leafFindPos entries k
  if pos = entries.length then entries ++ [(k, v)]
  else if (entries.getD pos (0, 0)).1 = k then entries
  else entries.take pos ++ (k, v) :: entries.drop pos

/-- Model of `BPlusTreeLeafPage::MoveFirstToEndOf` transcribed operation by operation:
`std::move(array_+1, array_+GetSize(), array_)` shifts the cells left, leaving
the physical array `sib.drop 1 ++ [last cell]`; `IncreaseSize(-1)`; then
`recipient->CopyLastFrom(array_[0])` appends the *post-shift* cell 0.
Returns `(new sibling entries, new recipient entries)`. -/
def leafMoveFirstToEndOf (sib rec : List LeafEntry) :
    List LeafEntry × List LeafEntry :=
  let phys := sib.drop 1 ++ sib.drop (sib.length - 1)
  let item := phys.headD (0, 0)
  (sib.drop 1, rec ++ [item])

/-- Model of `BPlusTreeLeafPage::MoveLastToFrontOf` transcribed: `IncreaseSize(-1)`
first, then `recipient->CopyFirstFrom(array_[GetSize() - 1])`, which after the
decrement reads the cell at index `length - 2`.
Returns `(new sibling entries, new recipient entries)`. -/
def leafMoveLastToFrontOf (sib rec : List LeafEntry) :
    List LeafEntry × List LeafEntry :=
  let item := sib.getD (sib.length - 2) (0, 0)
  (sib.take (sib.length - 1), item :: rec)

/-! ## Internal page entry array (`b_plus_tree_internal_page.cpp`)

An internal page's entries are `(key, child page id)` pairs; the key of slot 0
is the sentinel ("unused") key. -/

/-- One `(key, child page id)` slot of an internal page. -/
abbrev InternalEntry := Int × Int

/-- Model of `BPlusTreeInternalPage::SetKeyAt`. -/
def setKeyAt (entries : List InternalEntry) (i : Nat) (k : Int) :
    List InternalEntry :=
  entries.set i (k, (entries.getD i (0, 0)).2)

/-- Leaf case of `BPlusTree::Redistribute` (b_plus_tree.cpp:347-357): move one
entry between `neighbor` and `node` and patch the parent's separator key.
`index` is `node`'s value-index in the parent. Returns
`(neighbor', node', parent')`. -/
def redistributeLeaf (neighbor node : List LeafEntry)
    (parent : List InternalEntry) (index : Nat) (fromPrev : Bool) :
    List LeafEntry × List LeafEntry × List InternalEntry :=
  if !fromPrev then
    let (neighbor', node') := leafMoveFirstToEndOf neighbor node
    (neighbor', node', setKeyAt parent (index + 1) (neighbor'.headD (0, 0)).1)
  else
    let (neighbor', node') := leafMoveLastToFrontOf neighbor node
    (neighbor', node', setKeyAt parent index (node'.headD (0, 0)).1)

/-! ## LRU-K replacer (`lru_k_replacer.cpp`)

`frameRecords` maps a frame id to the queue of its recorded access timestamps
(front = oldest kept, at most `k`); `frameEvictable` maps a frame id to its
evictable flag. Timestamps come from the monotone counter
`current_timestamp_`. -/

/-- The header's sentinel `maxTimestamp` (`std::numeric_limits<size_t>::max()`). -/
def maxTimestamp : Nat := 18446744073709551615

/-- State of `LRUKReplacer`. -/
structure LRUK where
  records : List (Nat × List Nat)
  evictable : List (Nat × Bool)
  evictableNum : Int
  k : Nat
  replacerSize : Nat
  currentTimestamp : Nat
deriving DecidableEq

/-- The flag `frameEvictable[f]` as read by `Evict` (`operator[]` defaults to `false`). -/
def evictableOf (st : LRUK) (f : Nat) : Bool :=
  (lookupA st.evictable f).getD false

/-- The loop body of `LRUKReplacer::Evict` (lru_k_replacer.cpp:23-38), folded
over `frameRecords`. The accumulator is `(minTime, findLessKFrame, *frame_id)`;
the out-parameter is `none` while unwritten. -/
def evictLoop (k : Nat) (evct : Nat → Bool) :
    List (Nat × List Nat) → Nat × Bool × Option Nat → Nat × Bool × Option Nat
  | [], acc => acc
  | (fid, q) :: rest, (minTime, fk, chosen) =>
    if !(evct fid) then evictLoop k evct rest (minTime, fk, chosen)
    else if q.length < k then
      if !fk || q.headD 0 < minTime then
        evictLoop k evct rest (q.headD 0, true, some fid)
      else evictLoop k evct rest (minTime, fk, chosen)
    else
      if !fk then
        if q.headD 0 < minTime then
          evictLoop k evct rest (q.headD 0, fk, some fid)
        else evictLoop k evct rest (minTime, fk, chosen)
      else evictLoop k evct rest (minTime, fk, chosen)

/-- Model of `LRUKReplacer::Remove`: a no-op on an unknown frame, otherwise (asserting
the frame is evictable) erase it from both maps and decrement the count. -/
def removeFrame (st : LRUK) (f : Nat) : LRUK :=
  match lookupA st.evictable f with
  | none => st
  | some _ =>
      { st with
        records := eraseA st.records f
        evictable := eraseA st.evictable f
        evictableNum := st.evictableNum - 1 }

/-- Model of `LRUKReplacer::Evict`: run the selection loop; fail if `minTime` still
holds the sentinel, otherwise remove and return the victim. (When
`minTime ≠ maxTimestamp` the loop has necessarily written the out-parameter;
the `none` fallback is unreachable.) -/
def evict (st : LRUK) : Option Nat × LRUK :=
  match evictLoop st.k (evictableOf st) st.records (maxTimestamp, false, none) with
  | (minTime, _, chosen) =>
    if minTime = maxTimestamp then (none, st)
    else
      match chosen with
      | some f => (some f, removeFrame st f)
      | none => (none, st)

/-- Model of `LRUKReplacer::RecordAccess`: evict once when at capacity and the frame is
new; admit an unknown frame as evictable with an empty queue; push
`++current_timestamp_`; trim the queue to `k` entries. -/
def recordAccess (st : LRUK) (fid : Nat) : LRUK :=
  let st :=
    if st.records.length = st.replacerSize ∧ lookupA st.records fid = none
    then (evict st).2 else st
  let st :=
    if lookupA st.records fid = none then
      { st with
        records := st.records ++ [(fid, [])]
        evictable := insertA st.evictable fid true
        evictableNum := st.evictableNum + 1 }
    else st
  let ts := st.currentTimestamp + 1
  let q := (lookupA st.records fid).getD [] ++ [ts]
  let q := if q.length > st.k then q.drop 1 else q
  { st with records := insertA st.records fid q, currentTimestamp := ts }

/-- Model of `LRUKReplacer::SetEvictable` (the assert guarantees the frame is known in
every call site; `getD` only supplies totality). -/
def setEvictable (st : LRUK) (fid : Nat) (b : Bool) : LRUK :=
  let old := (lookupA st.evictable fid).getD false
  let num :=
    if b ∧ ¬old then st.evictableNum + 1
    else if ¬b ∧ old then st.evictableNum - 1
    else st.evictableNum
  { st with evictable := insertA st.evictable fid b, evictableNum := num }

/-- Invariant of `evictLoop` over the prefix `seen` of already-processed
`frameRecords` entries: with `findLessKFrame` set, the accumulator holds the
evictable under-K frame with the least front timestamp seen so far; otherwise
no evictable under-K frame was seen, and the accumulator holds either the
untouched sentinel or the evictable full-K frame with the least front. -/
def LoopInv (k : Nat) (evct : Nat → Bool) (seen : List (Nat × List Nat)) :
    Nat × Bool × Option Nat → Prop
  | (minTime, fk, chosen) =>
    (fk = true →
      ∃ p, p ∈ seen ∧ evct p.1 = true ∧ p.2.length < k ∧ chosen = some p.1 ∧
        minTime = p.2.headD 0 ∧
        ∀ q, q ∈ seen → evct q.1 = true → q.2.length < k →
          q.2.headD 0 ≠ p.2.headD 0 → minTime < q.2.headD 0) ∧
    (fk = false →
      (∀ q, q ∈ seen → evct q.1 = true → ¬ q.2.length < k) ∧
      ((minTime = maxTimestamp ∧
         ∀ q, q ∈ seen → evct q.1 = true → ¬ q.2.headD 0 < maxTimestamp) ∨
       (∃ p, p ∈ seen ∧ evct p.1 = true ∧ chosen = some p.1 ∧
         minTime = p.2.headD 0 ∧ minTime < maxTimestamp ∧
         ∀ q, q ∈ seen → evct q.1 = true → q.2.headD 0 ≠ p.2.headD 0 →
           minTime < q.2.headD 0)))

/-- Witness for C4, the spec's scenario 6: K = 2, frames `1,2,3`, accesses
`1,2,3,1,2,1` (so queues `1 ↦ [4,6]`, `2 ↦ [2,5]`, `3 ↦ [3]`), all evictable:
the selected victim satisfies the greatest-backward-K-distance property (it is
frame `3`, the only under-K frame). -/
def lrukScenario6 : LRUK :=
  ⟨[(1, [4, 6]), (2, [2, 5]), (3, [3])],
    [(1, true), (2, true), (3, true)], 3, 2, 3, 6⟩

/-! ## Buffer pool manager (`buffer_pool_manager_instance.cpp`)

A frame (`Page` object in a `pages_` slot) carries its page id, pin count,
dirty flag and byte content (abstracted to one `Int`; `ResetMemory` writes
`0`). Calls to the disk manager are recorded in trace fields
(`diskWriteLog` for `WritePage`, `deallocLog` for `DeallocatePage`). -/

/-- An in-memory frame (`Page`). -/
structure Frame where
  page_id : Int
  pin_count : Int
  is_dirty : Bool
  data : Int
deriving DecidableEq

/-- A default-constructed `Page`: invalid id, unpinned, clean, zeroed bytes. -/
instance : Inhabited Frame := ⟨⟨-1, 0, false, 0⟩⟩

/-- State of `BufferPoolManagerInstance` together with the disk manager's
observable state. -/
structure BPM where
  frames : List Frame
  pageTable : List (Int × Nat)
  freeList : List Nat
  replacer : LRUK
  nextPageId : Int
  disk : List (Int × Int)
  diskWriteLog : List Int
  deallocLog : List Int
deriving DecidableEq

/-- Reads `pages_[fid]`. -/
def getFrame (st : BPM) (fid : Nat) : Frame :=
  st.frames.getD fid default

/-- Write back `pages_[fid]`. -/
def setFrame (st : BPM) (fid : Nat) (f : Frame) : BPM :=
  { st with frames := st.frames.set fid f }

/-- Model of `disk_manager_->WritePage(pid, bytes)`, with the call traced. -/
def diskWrite (st : BPM) (pid : Int) (bytes : Int) : BPM :=
  { st with
    disk := insertA st.disk pid bytes
    diskWriteLog := st.diskWriteLog ++ [pid] }

/-- Model of `disk_manager_->ReadPage(pid, ..)`: bytes currently on disk. -/
def diskRead (st : BPM) (pid : Int) : Int :=
  (lookupA st.disk pid).getD 0

/-- The frame-acquisition block shared verbatim by `NewPgImp`
(buffer_pool_manager_instance.cpp:45-59) and `FetchPgImp` (79-93): take the
back of the free list, else evict a victim — removing its mapping, writing it
back if dirty and zeroing its memory — else fail. -/
def acquireFrame (st : BPM) : Option (Nat × BPM) :=
  if st.freeList ≠ [] then
    some (st.freeList.getLastD 0, { st with freeList := st.freeList.dropLast })
  else
    match evict st.replacer with
    | (some fid, rep) =>
      let lastPageId := (getFrame st fid).page_id
      let st := { st with replacer := rep, pageTable := eraseA st.pageTable lastPageId }
      let st :=
        if (getFrame st fid).is_dirty then
          let st := diskWrite st lastPageId (getFrame st fid).data
          setFrame st fid { getFrame st fid with is_dirty := false }
        else st
      some (fid, setFrame st fid { getFrame st fid with data := 0 })
    | (none, _) => none

/-- Model of `BufferPoolManagerInstance::NewPgImp`: `AllocatePage()` runs first
(line 43: `next_page_id_++`), then a frame is acquired; on success the mapping
is installed, an access is recorded, the frame is made non-evictable and
pinned. Returns `(page id, frame id)` on success. -/
def newPg (st : BPM) : Option (Int × Nat) × BPM :=
  let newPageId := st.nextPageId
  let st := { st with nextPageId := st.nextPageId + 1 }
  match acquireFrame st with
  | none => (none, st)
  | some (fid, st) =>
    let st := { st with pageTable := insertA st.pageTable newPageId fid }
    let st := { st with replacer := recordAccess st.replacer fid }
    let st := { st with replacer := setEvictable st.replacer fid false }
    let f := getFrame st fid
    (some (newPageId, fid),
      setFrame st fid { f with pin_count := f.pin_count + 1, page_id := newPageId })

/-- Model of `BufferPoolManagerInstance::FetchPgImp`: when the page table already maps
`pid` the function returns the frame immediately (lines 76-77) — without
touching the pin count, the replacer, or anything else. Otherwise a frame is
acquired, the mapping installed, an access recorded, eviction disabled, the
page read from disk and pinned. -/
def fetchPg (st : BPM) (pid : Int) : Option Nat × BPM :=
  match lookupA st.pageTable pid with
  | some fid => (some fid, st)
  | none =>
    match acquireFrame st with
    | none => (none, st)
    | some (fid, st) =>
      let st := { st with pageTable := insertA st.pageTable pid fid }
      let st := { st with replacer := recordAccess st.replacer fid }
      let st := { st with replacer := setEvictable st.replacer fid false }
      let f := getFrame st fid
      (some fid,
        setFrame st fid
          { f with data := diskRead st pid, pin_count := f.pin_count + 1,
                   page_id := pid })

/-- Model of `BufferPoolManagerInstance::UnpinPgImp`: fail on an unmapped or already
unpinned page; decrement the pin count, making the frame evictable when it
reaches zero; then `is_dirty_ = is_dirty` (a plain assignment in the source,
not an OR). -/
def unpinPg (st : BPM) (pid : Int) (isDirty : Bool) : Bool × BPM :=
  match lookupA st.pageTable pid with
  | none => (false, st)
  | some fid =>
    let f := getFrame st fid
    if f.pin_count ≤ 0 then (false, st)
    else
      let st :=
        if f.pin_count - 1 = 0 then
          { st with replacer := setEvictable st.replacer fid true }
        else st
      (true,
        setFrame st fid
          { getFrame st fid with pin_count := f.pin_count - 1, is_dirty := isDirty })

/-- Model of `BufferPoolManagerInstance::FlushPgImp`: write the bytes if mapped
(regardless of the dirty bit) and clear the dirty flag. -/
def flushPg (st : BPM) (pid : Int) : Bool × BPM :=
  match lookupA st.pageTable pid with
  | none => (false, st)
  | some fid =>
    let st := diskWrite st pid (getFrame st fid).data
    (true, setFrame st fid { getFrame st fid with is_dirty := false })

/-- Model of `BufferPoolManagerInstance::DeletePgImp`: absent page → `true` with no
change; pinned page → `false` with no change; otherwise remove the mapping
(the `page_table_->Remove` branch cannot fail after a successful `Find`),
remove the frame from the replacer, push it on the free list, zero its
memory, call `DeallocatePage`, and return `true`. -/
def deletePg (st : BPM) (pid : Int) : Bool × BPM :=
  match lookupA st.pageTable pid with
  | none => (true, st)
  | some fid =>
    if (getFrame st fid).pin_count > 0 then (false, st)
    else
      let st := { st with pageTable := eraseA st.pageTable pid }
      let st := { st with replacer := removeFrame st.replacer fid }
      let st := { st with freeList := st.freeList ++ [fid] }
      let st := setFrame st fid { getFrame st fid with data := 0 }
      (true, { st with deallocLog := st.deallocLog ++ [pid] })

/-- A buffer pool with page `7` mapped (frame `0`, one pin) and a free frame. -/
def bpmHit : BPM :=
  { frames := [⟨7, 1, false, 42⟩, default]
    pageTable := [(7, 0)]
    freeList := [1]
    replacer := ⟨[(0, [1])], [(0, false)], 0, 2, 2, 1⟩
    nextPageId := 8
    disk := [(7, 42)]
    diskWriteLog := []
    deallocLog := [] }

/-- A buffer pool with page `7` on frame `0` (pinned twice, dirty). -/
def bpmDirty : BPM :=
  { frames := [⟨7, 2, true, 42⟩]
    pageTable := [(7, 0)]
    freeList := []
    replacer := ⟨[(0, [1])], [(0, false)], 0, 2, 1, 1⟩
    nextPageId := 8
    disk := [(7, 0)]
    diskWriteLog := []
    deallocLog := [] }

/-- A pool with pinned page `7` (frame `0`) and unpinned dirty page `8`
(frame `1`, evictable). -/
def bpmDel : BPM :=
  { frames := [⟨7, 2, false, 5⟩, ⟨8, 0, true, 9⟩]
    pageTable := [(7, 0), (8, 1)]
    freeList := []
    replacer := ⟨[(0, [1]), (1, [2])], [(0, false), (1, true)], 1, 2, 2, 2⟩
    nextPageId := 9
    disk := [(7, 5)]
    diskWriteLog := []
    deallocLog := [] }

/-- A full pool: one frame, mapped, pinned, nothing free or evictable. -/
def bpmStuck : BPM :=
  { frames := [⟨7, 1, false, 5⟩]
    pageTable := [(7, 0)]
    freeList := []
    replacer := ⟨[(0, [1])], [(0, false)], 0, 2, 1, 1⟩
    nextPageId := 9
    disk := []
    diskWriteLog := []
    deallocLog := [] }

/-- Model of `BPlusTreeInternalPage::FindPos`: `std::lower_bound` over
`array_[0 .. GetSize())` — the search range *includes* slot 0, whose key is
the sentinel. On a sorted array this is the length of the maximal prefix of
keys `< k`. -/
def internalFindPos (entries : List InternalEntry) (k : Int) : Nat :=
  (entries.takeWhile (fun e => e.1 < k)).length

/-- The index handed to `ValueAt` by `BPlusTreeInternalPage::LookUp`
(b_plus_tree_internal_page.cpp:65-71): `pos` on the equality branch,
`pos - 1` otherwise (as a signed integer: `-1` is representable). -/
def internalLookUpIdx (entries : List InternalEntry) (k : Int) : Int :=
  let pos := internalFindPos entries k
  if pos ≠ entries.length ∧ (entries.getD pos (0, 0)).1 = k then (pos : Int)
  else (pos : Int) - 1

/-- Model of `BPlusTreeInternalPage::LookUp` with the out-of-bounds `ValueAt` access
made explicit: `none` models a read outside `[0, size)`. -/
def internalLookUp (entries : List InternalEntry) (k : Int) : Option Int :=
  let idx := internalLookUpIdx entries k
  if 0 ≤ idx ∧ idx < (entries.length : Int) then
    some (entries.getD idx.toNat (0, 0)).2
  else none

/-! ## B+-tree index (`b_plus_tree.cpp`)

Pages holding tree nodes are modelled as a store from page id to node
content. A node knows its entries, its parent page id, its `max_size`, and
(for leaves) the `next_page_id` chain pointer. -/

/-- A tree page (`BPlusTreeLeafPage` / `BPlusTreeInternalPage`). -/
inductive BNode where
  | leaf (entries : List LeafEntry) (next : Int) (parent : Int) (maxSize : Nat)
  | internal (entries : List InternalEntry) (parent : Int) (maxSize : Nat)
deriving DecidableEq

/-- Model of `BPlusTree` state: the pages reachable through the buffer pool, the root
page id, the allocator counter, the two `max_size` parameters, the index name
and the header page's `(name → root id)` records. -/
structure Tree where
  store : List (Int × BNode)
  rootId : Int
  nextPid : Int
  leafMax : Nat
  internalMax : Nat
  name : String
  header : List (String × Int)
deriving DecidableEq

/-- Fetch a page's node content. -/
def getNode (st : Tree) (pid : Int) : Option BNode :=
  lookupA st.store pid

/-- Write a page's node content. -/
def setNode (st : Tree) (pid : Int) (n : BNode) : Tree :=
  { st with store := insertA st.store pid n }

/-- Model of `BPlusTreePage::GetParentPageId`. -/
def nodeParent : BNode → Int
  | .leaf _ _ parent _ => parent
  | .internal _ parent _ => parent

/-- Model of `BPlusTreePage::SetParentPageId` through the store. -/
def setParent (st : Tree) (pid : Int) (par : Int) : Tree :=
  match getNode st pid with
  | some (.leaf e nxt _ m) => setNode st pid (.leaf e nxt par m)
  | some (.internal e _ m) => setNode st pid (.internal e par m)
  | none => st

/-- Model of `BPlusTreeInternalPage::Insert` — same lower-bound algorithm as the leaf
version (b_plus_tree_internal_page.cpp:101-114). -/
def internalInsert (entries : List InternalEntry) (k : Int) (v : Int) :
    List InternalEntry :=
  let pos := internalFindPos entries k
  if pos = entries.length then entries ++ [(k, v)]
  else if (entries.getD pos (0, 0)).1 = k then entries
  else entries.take pos ++ (k, v) :: entries.drop pos

/-- Modelled from the spec: `BPlusTreePage::GetMinSize` (declared in a header
outside `src/`) — `min_size = ceil((max_size - 1)/2)` for leaves, which equals
`max_size / 2` in integer arithmetic. -/
def leafMinSize (maxSize : Nat) : Nat := maxSize / 2

/-- Modelled from the spec: `BPlusTreePage::GetMinSize` for internal nodes —
`min_size = ceil(max_size / 2)`. -/
def internalMinSize (maxSize : Nat) : Nat := (maxSize + 1) / 2

/-- Modelled from the spec: `HeaderPage::InsertRecord` — append a
`(name, root id)` record to the header page's append-only mapping. -/
def headerInsertRecord (h : List (String × Int)) (name : String) (rid : Int) :
    List (String × Int) :=
  h ++ [(name, rid)]

/-- Modelled from the spec: `HeaderPage::UpdateRecord` — overwrite the record
for `name`. -/
def headerUpdateRecord (h : List (String × Int)) (name : String) (rid : Int) :
    List (String × Int) :=
  insertA h name rid

/-- Model of `BPlusTree::UpdateRootPageId` (b_plus_tree.cpp:471-482): insert or update
the `(index_name_, root_page_id_)` record in the header page. -/
def updateRootPageId (st : Tree) (insertRecord : Int) : Tree :=
  if insertRecord ≠ 0 then
    { st with header := headerInsertRecord st.header st.name st.rootId }
  else
    { st with header := headerUpdateRecord st.header st.name st.rootId }

/-- The descent loop of `BPlusTree::FindLeaf` (b_plus_tree.cpp:68-99) for the
keyed (non-leftmost/rightmost) case, with fuel bounding the depth; `none`
models an out-of-bounds `ValueAt` read inside `LookUp` or a dangling page id. -/
def findLeafAux (st : Tree) (k : Int) : Nat → Int → Option Int
  | 0, _ => none
  | fuel + 1, pid =>
    match getNode st pid with
    | some (.leaf _ _ _ _) => some pid
    | some (.internal entries _ _) =>
      match internalLookUp entries k with
      | some child => findLeafAux st k fuel child
      | none => none
    | none => none

/-- Runs `FindLeaf` from the root (the store size bounds the depth). -/
def findLeaf (st : Tree) (k : Int) : Option Int :=
  findLeafAux st k (st.store.length + 1) st.rootId

/-- Model of `BPlusTree::StartNewTree`: allocate the root page (`NewPage` writes the
fresh id straight into `root_page_id_`), init it as a leaf and insert. -/
def startNewTree (st : Tree) (k : Int) (v : Nat) : Tree :=
  let pid := st.nextPid
  let st := { st with nextPid := st.nextPid + 1, rootId := pid }
  setNode st pid (.leaf (leafInsert [] k v) INVALID_PAGE_ID INVALID_PAGE_ID st.leafMax)

/-- Model of `BPlusTree::InsertIntoParent` (b_plus_tree.cpp:165-201). Root case: a new
internal root is allocated on a zeroed page (its slot-0 sentinel key reads as
`0`), gets `key` at slot 1, children `(old, new)` and size 2, both children
are re-parented and `root_page_id_` is updated — *no* `UpdateRootPageId` call
is made, so the header page is untouched. Non-root case: insert into the
parent if it has room, else split it through the over-sized scratch copy and
recurse. -/
def insertIntoParent (st : Tree) : Nat → Int → Int → Int → Option Tree
  | 0, _, _, _ => none
  | fuel + 1, oldPid, newPid, key =>
    match getNode st oldPid with
    | none => none
    | some oldN =>
      if nodeParent oldN = INVALID_PAGE_ID then
        let rootPid := st.nextPid
        let st := { st with nextPid := st.nextPid + 1, rootId := rootPid }
        let st := setNode st rootPid
          (.internal [(0, oldPid), (key, newPid)] INVALID_PAGE_ID st.internalMax)
        let st := setParent st oldPid rootPid
        some (setParent st newPid rootPid)
      else
        let parentPid := nodeParent oldN
        match getNode st parentPid with
        | some (.internal pentries ppar pmax) =>
          if pentries.length < st.internalMax then
            let st := setNode st parentPid
              (.internal (internalInsert pentries key newPid) ppar pmax)
            let st := setParent st oldPid parentPid
            some (setParent st newPid parentPid)
          else
            let copy := internalInsert pentries key newPid
            let mid := internalMinSize st.internalMax
            let siblingPid := st.nextPid
            let st := { st with nextPid := st.nextPid + 1 }
            let sibEntries := copy.drop mid
            let st := setNode st siblingPid (.internal sibEntries ppar st.internalMax)
            let st := sibEntries.foldl (fun s e => setParent s e.2 siblingPid) st
            let st := setNode st parentPid (.internal (copy.take mid) ppar pmax)
            insertIntoParent st fuel parentPid siblingPid (sibEntries.headD (0, 0)).1
        | _ => none

/-- Model of `BPlusTree::InsertIntoLeaf`: find the leaf, insert; duplicate keys leave
size — and everything else — unchanged and return `false`; an overflowing
leaf is split, spliced into the sibling chain, and pushed into the parent. -/
def insertIntoLeaf (st : Tree) (k : Int) (v : Nat) : Option (Bool × Tree) :=
  match findLeaf st k with
  | none => none
  | some leafPid =>
    match getNode st leafPid with
    | some (.leaf entries nxt par m) =>
      let lastSize := entries.length
      let entries' := leafInsert entries k v
      if entries'.length = lastSize then some (false, st)
      else if entries'.length < st.leafMax then
        some (true, setNode st leafPid (.leaf entries' nxt par m))
      else
        let mid := leafMinSize m
        let siblingPid := st.nextPid
        let st := { st with nextPid := st.nextPid + 1 }
        let rightEntries := entries'.drop mid
        let st := setNode st siblingPid (.leaf rightEntries nxt par st.leafMax)
        let st := setNode st leafPid (.leaf (entries'.take mid) siblingPid par m)
        match insertIntoParent st (st.store.length + 1) leafPid siblingPid
            (rightEntries.headD (0, 0)).1 with
        | none => none
        | some st => some (true, st)
    | _ => none

/-- Model of `BPlusTree::Insert`: start a new tree when empty, else insert into the
leaf. -/
def insertTree (st : Tree) (k : Int) (v : Nat) : Option (Bool × Tree) :=
  if st.rootId = INVALID_PAGE_ID then some (true, startNewTree st k v)
  else insertIntoLeaf st k v

/-- The tree just after the first leaf split: leaf `1` (keys `[1]`, next `2`)
and leaf `2` (keys `[2,3]`), both still root-parented (`-1`); the header page
holds the record `("idx", 1)` for the old root. -/
def treeAfterLeafSplit : Tree :=
  { store := [(1, .leaf [(1, 10)] 2 (-1) 3), (2, .leaf [(2, 20), (3, 30)] (-1) (-1) 3)]
    rootId := 1
    nextPid := 3
    leafMax := 3
    internalMax := 3
    name := "idx"
    header := [("idx", 1)] }

/-! ### Well-formedness for the duplicate-insert claim

`wfAux` encodes the spec's structural invariants needed for descent
correctness: in-node keys strictly ascending (P3), every child subtree's keys
inside the parent's key interval (I5), plus the sentinel condition that an
internal node's slot-0 key is a lower bound for its first child's subtree —
the condition the original claim is missing (see the C8 counterexample). -/

/-- Inclusive lower bound check (`none` = unbounded). -/
def lbOk (lo : Option Int) (k : Int) : Bool :=
  match lo with
  | none => true
  | some l => decide (l ≤ k)

/-- Exclusive upper bound check (`none` = unbounded). -/
def ubOk (hi : Option Int) (k : Int) : Bool :=
  match hi with
  | none => true
  | some h => decide (k < h)

/-- Strictly ascending list of keys. -/
def sortedStrict : List Int → Bool
  | [] => true
  | [_] => true
  | a :: b :: t => decide (a < b) && sortedStrict (b :: t)

/-- Check each child of an internal node against its key interval: child `i`
owns `[key_i, key_(i+1))`, the last child owns `[key_last, hi)`. -/
def wfKidsAux (w : Int → Option Int → Option Int → Bool) :
    List InternalEntry → Option Int → Bool
  | [], _ => true
  | [(kk, c)], hi => w c (some kk) hi
  | (k1, c1) :: (k2, c2) :: t, hi =>
      w c1 (some k1) (some k2) && wfKidsAux w ((k2, c2) :: t) hi

/-- Key-interval well-formedness of the subtree rooted at `pid`, all of whose
keys lie in `[lo, hi)`. -/
def wfAux (st : Tree) : Nat → Int → Option Int → Option Int → Bool
  | 0, _, _, _ => false
  | fuel + 1, pid, lo, hi =>
    match getNode st pid with
    | none => false
    | some (.leaf entries _ _ _) =>
        sortedStrict (entries.map (·.1)) &&
        entries.all (fun e => lbOk lo e.1 && ubOk hi e.1)
    | some (.internal entries _ _) =>
        !entries.isEmpty &&
        sortedStrict (entries.map (·.1)) &&
        entries.all (fun e => lbOk lo e.1 && ubOk hi e.1) &&
        wfKidsAux (fun c lo' hi' => wfAux st fuel c lo' hi') entries hi

/-- All keys stored in the leaves of the subtree rooted at `pid`. -/
def subtreeKeys (st : Tree) : Nat → Int → List Int
  | 0, _ => []
  | fuel + 1, pid =>
    match getNode st pid with
    | some (.leaf entries _ _ _) => entries.map (·.1)
    | some (.internal entries _ _) =>
        entries.flatMap (fun e => subtreeKeys st fuel e.2)
    | none => []

/-- The child an interval-respecting router would descend into: the last
child whose slot key is `≤ k` (specification of what `LookUp` computes when
the slot-0 key is `≤ k`). -/
def chooseChild : List InternalEntry → Int → Int
  | [], _ => 0
  | [(_, c)], _ => c
  | (_, c1) :: (k2, c2) :: t, k =>
      if k < k2 then c1 else chooseChild ((k2, c2) :: t) k

/-- A concrete well-formed two-level tree: root `0` routes `[1, 10)` to leaf
`1` (keys `1, 3`) and `[10, ∞)` to leaf `2` (key `10`). -/
def treeGood : Tree :=
  { store := [(0, .internal [(1, 1), (10, 2)] (-1) 3),
              (1, .leaf [(1, 10), (3, 30)] 2 0 3),
              (2, .leaf [(10, 100)] (-1) 0 3)]
    rootId := 0
    nextPid := 3
    leafMax := 3
    internalMax := 3
    name := "idx"
    header := [("idx", 0)] }

/-- C6 counterexample: the tree below is exactly what the source builds after
a root split with negative keys — the new root's slot-0 sentinel key is the
`0` read from the zeroed page, while leaf `1` holds the key `-3`. The spec's
own invariants (sorted nodes, separator `10` partitioning the leaves) hold,
and `-3` is present in the tree, yet `insert(-3, v)` does not return `false`
leaving the tree unchanged: the descent's `FindPos` returns position `0` and
`ValueAt(-1)` reads out of bounds (modelled as `none`). -/
def treeBad : Tree :=
  { store := [(0, .internal [(0, 1), (10, 2)] (-1) 3),
              (1, .leaf [(-3, 30)] 2 0 3),
              (2, .leaf [(10, 100)] (-1) 0 3)]
    rootId := 0
    nextPid := 3
    leafMax := 3
    internalMax := 3
    name := "idx"
    header := [("idx", 0)] }

/-- The head `q.headD 0` of a nonempty queue is one of its elements. -/
lemma headD_mem {q : List Nat} (h : q ≠ []) : q.headD 0 ∈ q := by
  cases q with
  | nil => exact absurd rfl h
  | cons a t => simp [List.headD]

lemma evictLoop_inv (k : Nat) (evct : Nat → Bool) :
    ∀ (rest seen : List (Nat × List Nat)) (acc : Nat × Bool × Option Nat),
      LoopInv k evct seen acc →
      LoopInv k evct (seen ++ rest) (evictLoop k evct rest acc) := by
  intro rest
  induction rest with
  | nil =>
    intro seen acc h
    simpa [evictLoop] using h
  | cons x rest ih =>
    intro seen acc h
    obtain ⟨fid, q⟩ := x
    obtain ⟨minTime, fk, chosen⟩ := acc
    have hsplit : seen ++ (fid, q) :: rest = (seen ++ [(fid, q)]) ++ rest := by
      simp
    rw [hsplit]
    by_cases he : evct fid = true
    · by_cases hlt : q.length < k
      · by_cases hfk : fk = true
        · by_cases hmin : q.headD 0 < minTime
          · -- under-K, replaces the previous under-K choice
            have hred : evictLoop k evct ((fid, q) :: rest) (minTime, fk, chosen)
                = evictLoop k evct rest (q.headD 0, true, some fid) := by
              simp only [evictLoop]
              rw [if_neg (by simp [he]), if_pos hlt,
                if_pos (by simp only [hfk, Bool.not_true, Bool.false_or,
                  decide_eq_true_eq]; exact hmin)]
            rw [hred]
            apply ih
            obtain ⟨p, hps, hpe, hpk, -, hpmt, hpbnd⟩ := h.1 hfk
            constructor
            · intro _
              refine ⟨(fid, q), by simp, he, hlt, rfl, rfl, ?_⟩
              intro r hr hre hrk hrne
              rcases List.mem_append.1 hr with hr | hr
              · by_cases hrp : r.2.headD 0 = p.2.headD 0
                · rw [hrp, ← hpmt]; exact hmin
                · exact lt_trans hmin (hpbnd r hr hre hrk hrp)
              · simp at hr
                rw [hr] at hrne
                exact absurd rfl hrne
            · intro hcontra; cases hcontra
          · -- under-K, previous under-K choice kept
            have hred : evictLoop k evct ((fid, q) :: rest) (minTime, fk, chosen)
                = evictLoop k evct rest (minTime, fk, chosen) := by
              simp only [evictLoop]
              rw [if_neg (by simp [he]), if_pos hlt,
                if_neg (by simp only [hfk, Bool.not_true, Bool.false_or,
                  decide_eq_true_eq]; exact hmin)]
            rw [hred]
            apply ih
            obtain ⟨p, hps, hpe, hpk, hpc, hpmt, hpbnd⟩ := h.1 hfk
            constructor
            · intro _
              refine ⟨p, List.mem_append_left _ hps, hpe, hpk, hpc, hpmt, ?_⟩
              intro r hr hre hrk hrne
              rcases List.mem_append.1 hr with hr | hr
              · exact hpbnd r hr hre hrk hrne
              · simp at hr
                subst hr
                have hne2 : q.headD 0 ≠ minTime := by rw [hpmt]; exact hrne
                exact lt_of_le_of_ne (le_of_not_lt hmin) (Ne.symm hne2)
            · intro hcontra; rw [hfk] at hcontra; cases hcontra
        · -- under-K and findLessKFrame was false: selected unconditionally
          have hfk' : fk = false := by
            cases fk
            · rfl
            · exact absurd rfl hfk
          have hred : evictLoop k evct ((fid, q) :: rest) (minTime, fk, chosen)
              = evictLoop k evct rest (q.headD 0, true, some fid) := by
            simp only [evictLoop]
            rw [if_neg (by simp [he]), if_pos hlt, if_pos (by simp [hfk'])]
          rw [hred]
          apply ih
          have hnone := (h.2 hfk').1
          constructor
          · intro _
            refine ⟨(fid, q), by simp, he, hlt, rfl, rfl, ?_⟩
            intro r hr hre hrk hrne
            rcases List.mem_append.1 hr with hr | hr
            · exact absurd hrk (hnone r hr hre)
            · simp at hr
              rw [hr] at hrne
              exact absurd rfl hrne
          · intro hcontra; cases hcontra
      · -- full-K entry
        by_cases hfk : fk = true
        · -- findLessKFrame already set: skipped
          have hred : evictLoop k evct ((fid, q) :: rest) (minTime, fk, chosen)
              = evictLoop k evct rest (minTime, fk, chosen) := by
            simp only [evictLoop]
            rw [if_neg (by simp [he]), if_neg hlt, if_neg (by simp [hfk])]
          rw [hred]
          apply ih
          obtain ⟨p, hps, hpe, hpk, hpc, hpmt, hpbnd⟩ := h.1 hfk
          constructor
          · intro _
            refine ⟨p, List.mem_append_left _ hps, hpe, hpk, hpc, hpmt, ?_⟩
            intro r hr hre hrk hrne
            rcases List.mem_append.1 hr with hr | hr
            · exact hpbnd r hr hre hrk hrne
            · simp at hr
              rw [hr] at hrk
              exact absurd hrk hlt
          · intro hcontra; rw [hfk] at hcontra; cases hcontra
        · have hfk' : fk = false := by
            cases fk
            · rfl
            · exact absurd rfl hfk
          obtain ⟨hnone, hdisj⟩ := h.2 hfk'
          by_cases hmin : q.headD 0 < minTime
          · -- full-K frame with smaller front: becomes the candidate
            have hred : evictLoop k evct ((fid, q) :: rest) (minTime, fk, chosen)
                = evictLoop k evct rest (q.headD 0, fk, some fid) := by
              simp only [evictLoop]
              rw [if_neg (by simp [he]), if_neg hlt, if_pos (by simp [hfk']),
                if_pos hmin]
            rw [hred]
            apply ih
            constructor
            · intro hcontra; rw [hfk'] at hcontra; cases hcontra
            · intro _
              constructor
              · intro r hr hre
                rcases List.mem_append.1 hr with hr | hr
                · exact hnone r hr hre
                · simp at hr
                  rw [hr]; exact hlt
              · right
                have hqmax : q.headD 0 < maxTimestamp := by
                  rcases hdisj with ⟨hmax, -⟩ | ⟨p, -, -, -, hpmt, hpmax, -⟩
                  · rw [← hmax]; exact hmin
                  · exact lt_trans hmin hpmax
                refine ⟨(fid, q), by simp, he, rfl, rfl, hqmax, ?_⟩
                intro r hr hre hrne
                rcases List.mem_append.1 hr with hr | hr
                · rcases hdisj with ⟨hmax, hbig⟩ | ⟨p, -, -, -, hpmt, -, hpbnd⟩
                  · have := hbig r hr hre
                    calc q.headD 0 < maxTimestamp := hqmax
                      _ ≤ r.2.headD 0 := le_of_not_lt this
                  · by_cases hrp : r.2.headD 0 = p.2.headD 0
                    · rw [hrp, ← hpmt]; exact hmin
                    · exact lt_trans hmin (hpbnd r hr hre hrp)
                · simp at hr
                  rw [hr] at hrne
                  exact absurd rfl hrne
          · -- full-K frame skipped
            have hred : evictLoop k evct ((fid, q) :: rest) (minTime, fk, chosen)
                = evictLoop k evct rest (minTime, fk, chosen) := by
              simp only [evictLoop]
              rw [if_neg (by simp [he]), if_neg hlt, if_pos (by simp [hfk']),
                if_neg hmin]
            rw [hred]
            apply ih
            constructor
            · intro hcontra; rw [hfk'] at hcontra; cases hcontra
            · intro _
              constructor
              · intro r hr hre
                rcases List.mem_append.1 hr with hr | hr
                · exact hnone r hr hre
                · simp at hr
                  rw [hr]; exact hlt
              · rcases hdisj with ⟨hmax, hbig⟩ | ⟨p, hps, hpe, hpc, hpmt, hpmax, hpbnd⟩
                · left
                  refine ⟨hmax, ?_⟩
                  intro r hr hre
                  rcases List.mem_append.1 hr with hr | hr
                  · exact hbig r hr hre
                  · simp at hr
                    rw [hr]; rw [hmax] at hmin; exact hmin
                · right
                  refine ⟨p, List.mem_append_left _ hps, hpe, hpc, hpmt, hpmax, ?_⟩
                  intro r hr hre hrne
                  rcases List.mem_append.1 hr with hr | hr
                  · exact hpbnd r hr hre hrne
                  · simp at hr
                    subst hr
                    have hne2 : q.headD 0 ≠ minTime := by rw [hpmt]; exact hrne
                    exact lt_of_le_of_ne (le_of_not_lt hmin) (Ne.symm hne2)
    · -- frame not evictable: skipped entirely
      have hred : evictLoop k evct ((fid, q) :: rest) (minTime, fk, chosen)
          = evictLoop k evct rest (minTime, fk, chosen) := by
        have hev : evct fid = false := by
          cases hev : evct fid
          · rfl
          · exact absurd hev he
        simp only [evictLoop]
        rw [if_pos (by simp [hev])]
      rw [hred]
      apply ih
      constructor
      · intro hfk
        obtain ⟨p, hps, hpe, hpk, hpc, hpmt, hpbnd⟩ := h.1 hfk
        refine ⟨p, List.mem_append_left _ hps, hpe, hpk, hpc, hpmt, ?_⟩
        intro r hr hre hrk hrne
        rcases List.mem_append.1 hr with hr | hr
        · exact hpbnd r hr hre hrk hrne
        · simp at hr
          rw [hr] at hre
          exact absurd hre he
      · intro hfk
        obtain ⟨hnone, hdisj⟩ := h.2 hfk
        constructor
        · intro r hr hre
          rcases List.mem_append.1 hr with hr | hr
          · exact hnone r hr hre
          · simp at hr
            rw [hr] at hre
            exact absurd hre he
        · rcases hdisj with ⟨hmax, hbig⟩ | ⟨p, hps, hpe, hpc, hpmt, hpmax, hpbnd⟩
          · left
            refine ⟨hmax, ?_⟩
            intro r hr hre
            rcases List.mem_append.1 hr with hr | hr
            · exact hbig r hr hre
            · simp at hr
              rw [hr] at hre
              exact absurd hre he
          · right
            refine ⟨p, List.mem_append_left _ hps, hpe, hpc, hpmt, hpmax, ?_⟩
            intro r hr hre hrne
            rcases List.mem_append.1 hr with hr | hr
            · exact hpbnd r hr hre hrne
            · simp at hr
              rw [hr] at hre
              exact absurd hre he

/-- C4: in a replacer state with at least one evictable frame (well-formed:
queues nonempty, timestamps below the sentinel, front timestamps pairwise
distinct as produced by the global counter), `Evict` returns an evictable
frame `p` that is removed from the replacer, such that every under-K frame is
preferred over every full-K frame, among under-K frames the one with the
earliest oldest recorded access wins, and among full-K frames the one with the
earliest kth-most-recent access (the queue front) wins. -/
theorem evict_selects_greatest_backward_k_distance (st : LRUK)
    (hq : ∀ p ∈ st.records, p.2 ≠ [])
    (hts : ∀ p ∈ st.records, ∀ t ∈ p.2, t < maxTimestamp)
    (hfronts : (st.records.map (fun p => p.2.headD 0)).Nodup)
    (hex : ∃ p ∈ st.records, evictableOf st p.1 = true) :
    ∃ p ∈ st.records, evictableOf st p.1 = true ∧
      evict st = (some p.1, removeFrame st p.1) ∧
      ∀ r ∈ st.records, evictableOf st r.1 = true → r ≠ p →
        (r.2.length < st.k →
            p.2.length < st.k ∧ p.2.headD 0 < r.2.headD 0) ∧
        (¬ r.2.length < st.k →
            p.2.length < st.k ∨ p.2.headD 0 < r.2.headD 0) := by
  have hinit : LoopInv st.k (evictableOf st) [] (maxTimestamp, false, none) := by
    constructor
    · intro hcontra; cases hcontra
    · intro _
      refine ⟨fun q hq _ => absurd hq (List.not_mem_nil q), Or.inl ⟨rfl, ?_⟩⟩
      intro q hq
      exact absurd hq (List.not_mem_nil q)
  have hInv := evictLoop_inv st.k (evictableOf st) st.records [] _ hinit
  rw [List.nil_append] at hInv
  rcases hloop : evictLoop st.k (evictableOf st) st.records
      (maxTimestamp, false, none) with ⟨minTime, fk, chosen⟩
  rw [hloop] at hInv
  have hfrontlt : ∀ p ∈ st.records, p.2.headD 0 < maxTimestamp := by
    intro p hp
    exact hts p hp _ (headD_mem (hq p hp))
  have hinj : ∀ r ∈ st.records, ∀ p ∈ st.records, r ≠ p →
      r.2.headD 0 ≠ p.2.headD 0 := by
    intro r hr p hp hne heq
    exact hne (List.inj_on_of_nodup_map hfronts hr hp heq)
  cases hfk : fk with
  | true =>
    obtain ⟨p, hps, hpe, hpk, hpc, hpmt, hpbnd⟩ := hInv.1 hfk
    have hne : minTime ≠ maxTimestamp := by
      rw [hpmt]
      exact ne_of_lt (hfrontlt p hps)
    refine ⟨p, hps, hpe, ?_, ?_⟩
    · simp only [evict, hloop, if_neg hne, hpc]
    · intro r hr hre hrne
      constructor
      · intro hrk
        refine ⟨hpk, ?_⟩
        rw [← hpmt]
        exact hpbnd r hr hre hrk (hinj r hr p hps hrne)
      · intro _
        exact Or.inl hpk
  | false =>
    obtain ⟨hnone, hdisj⟩ := hInv.2 hfk
    rcases hdisj with ⟨-, hbig⟩ | ⟨p, hps, hpe, hpc, hpmt, hpmax, hpbnd⟩
    · obtain ⟨e, hes, hee⟩ := hex
      exact absurd (hfrontlt e hes) (hbig e hes hee)
    · refine ⟨p, hps, hpe, ?_, ?_⟩
      · simp only [evict, hloop, if_neg (ne_of_lt hpmax), hpc]
      · intro r hr hre hrne
        constructor
        · intro hrk
          exact absurd hrk (hnone r hr hre)
        · intro _
          refine Or.inr ?_
          rw [← hpmt]
          exact hpbnd r hr hre (hinj r hr p hps hrne)

theorem evict_selects_greatest_backward_k_distance_witness :
    ∃ p ∈ lrukScenario6.records,
      evictableOf lrukScenario6 p.1 = true ∧
      evict lrukScenario6 = (some p.1, removeFrame lrukScenario6 p.1) ∧
      ∀ r ∈ lrukScenario6.records,
        evictableOf lrukScenario6 r.1 = true → r ≠ p →
          (r.2.length < lrukScenario6.k →
              p.2.length < lrukScenario6.k ∧ p.2.headD 0 < r.2.headD 0) ∧
          (¬ r.2.length < lrukScenario6.k →
              p.2.length < lrukScenario6.k ∨ p.2.headD 0 < r.2.headD 0) :=
  evict_selects_greatest_backward_k_distance lrukScenario6
    (by decide) (by decide) (by decide) ⟨(3, [3]), by decide, by decide⟩

/-- With no evictable frame the selection loop leaves the accumulator alone. -/
lemma evictLoop_skip_all (k : Nat) (evct : Nat → Bool) :
    ∀ (l : List (Nat × List Nat)) (acc : Nat × Bool × Option Nat),
      (∀ p ∈ l, evct p.1 = false) → evictLoop k evct l acc = acc := by
  intro l
  induction l with
  | nil => intro acc _; rfl
  | cons x rest ih =>
    intro acc h
    obtain ⟨fid, q⟩ := x
    obtain ⟨minTime, fk, chosen⟩ := acc
    have hx : evct fid = false := h (fid, q) (by simp)
    simp only [evictLoop]
    rw [if_pos (by simp [hx])]
    exact ih _ fun p hp => h p (List.mem_cons_of_mem _ hp)

/-- An `Evict` call fails and changes nothing when no frame is evictable. -/
lemma evict_no_evictable (st : LRUK)
    (h : ∀ p ∈ st.records, evictableOf st p.1 = false) :
    evict st = (none, st) := by
  simp [evict, evictLoop_skip_all st.k (evictableOf st) st.records _ h]

/-- Reading back the slot just written. -/
lemma getD_set_self {α : Type} [Inhabited α] :
    ∀ (l : List α) (n : Nat) (x : α), n < l.length →
      (l.set n x).getD n default = x := by
  intro l
  induction l with
  | nil => intro n x h; exact absurd h (Nat.not_lt_zero n)
  | cons a t ih =>
    intro n x h
    cases n with
    | zero => rfl
    | succ m => exact ih m x (Nat.lt_of_succ_lt_succ h)

lemma getFrame_setFrame_self (st : BPM) (fid : Nat) (f : Frame)
    (h : fid < st.frames.length) : getFrame (setFrame st fid f) fid = f :=
  getD_set_self st.frames fid f h

/-- C1: `FetchPgImp` on an already-mapped page returns the mapped frame and
leaves the *entire* pool state unchanged — the pin count is not incremented,
no access is recorded, and the frame is not made non-evictable. -/
theorem fetchPg_mapped_page_changes_nothing (st : BPM) (pid : Int) (fid : Nat)
    (h : lookupA st.pageTable pid = some fid) :
    fetchPg st pid = (some fid, st) := by
  simp [fetchPg, h]

/-- Witness for C1: fetching mapped page `7` (frame `0`, `pin_count = 1`)
returns the frame with the state — in particular the pin count — unchanged. -/
theorem fetchPg_mapped_page_changes_nothing_witness :
    lookupA bpmHit.pageTable 7 = some 0 ∧
    (getFrame bpmHit 0).pin_count = 1 ∧
    fetchPg bpmHit 7 = (some 0, bpmHit) :=
  ⟨by decide, by decide,
    fetchPg_mapped_page_changes_nothing bpmHit 7 0 (by decide)⟩

/-- C2: `UnpinPgImp` on a mapped page with a positive pin count succeeds and
*assigns* the `is_dirty` argument to the frame's dirty flag — whatever the
flag's previous value was — instead of OR-ing it in. -/
theorem unpinPg_assigns_dirty_flag (st : BPM) (pid : Int) (fid : Nat) (d : Bool)
    (h : lookupA st.pageTable pid = some fid)
    (hpin : 0 < (getFrame st fid).pin_count)
    (hlen : fid < st.frames.length) :
    (unpinPg st pid d).1 = true ∧
    (getFrame (unpinPg st pid d).2 fid).is_dirty = d := by
  have hnle : ¬ (getFrame st fid).pin_count ≤ 0 := not_le.mpr hpin
  simp only [unpinPg, h]
  rw [if_neg hnle]
  by_cases hz : (getFrame st fid).pin_count - 1 = 0
  · simp only [if_pos hz]
    refine ⟨trivial, ?_⟩
    show ((st.frames.set fid _).getD fid default).is_dirty = d
    rw [getD_set_self st.frames fid _ hlen]
  · simp only [if_neg hz]
    refine ⟨trivial, ?_⟩
    show ((st.frames.set fid _).getD fid default).is_dirty = d
    rw [getD_set_self st.frames fid _ hlen]

/-- Witness for C2: page `7` is dirty before `unpin(7, false)` and clean
afterwards — the dirty bit set by an earlier `unpin(.., true)` is lost. -/
theorem unpinPg_assigns_dirty_flag_witness :
    (getFrame bpmDirty 0).is_dirty = true ∧
    (unpinPg bpmDirty 7 false).1 = true ∧
    (getFrame (unpinPg bpmDirty 7 false).2 0).is_dirty = false :=
  ⟨by decide,
    (unpinPg_assigns_dirty_flag bpmDirty 7 0 false (by decide) (by decide)
      (by decide)).1,
    (unpinPg_assigns_dirty_flag bpmDirty 7 0 false (by decide) (by decide)
      (by decide)).2⟩

/-- Effects of a successful `DeletePgImp` on a mapped, unpinned page. -/
lemma deletePg_success_effects (st : BPM) (pid : Int) (fid : Nat)
    (h : lookupA st.pageTable pid = some fid)
    (hpin : ¬ 0 < (getFrame st fid).pin_count) :
    (deletePg st pid).1 = true ∧
    (deletePg st pid).2.pageTable = eraseA st.pageTable pid ∧
    (deletePg st pid).2.replacer = removeFrame st.replacer fid ∧
    (deletePg st pid).2.freeList = st.freeList ++ [fid] ∧
    (deletePg st pid).2.frames
      = st.frames.set fid { getFrame st fid with data := 0 } ∧
    (deletePg st pid).2.deallocLog = st.deallocLog ++ [pid] ∧
    (deletePg st pid).2.disk = st.disk ∧
    (deletePg st pid).2.diskWriteLog = st.diskWriteLog ∧
    (deletePg st pid).2.nextPageId = st.nextPageId := by
  simp only [deletePg, h]
  rw [if_neg hpin]
  exact ⟨rfl, rfl, rfl, rfl, rfl, rfl, rfl, rfl, rfl⟩

/-- C7: `DeletePgImp` returns `true` and changes nothing on an unmapped page;
returns `false` and changes nothing on a pinned page; and otherwise returns
`true` after removing the page-table mapping, removing the frame from the
replacer, pushing the frame on the free list, zeroing the frame's bytes and
calling `DeallocatePage` — touching neither the disk nor the allocator. -/
theorem deletePg_cases (st : BPM) (pid : Int) :
    (lookupA st.pageTable pid = none → deletePg st pid = (true, st)) ∧
    (∀ fid, lookupA st.pageTable pid = some fid →
      0 < (getFrame st fid).pin_count → deletePg st pid = (false, st)) ∧
    (∀ fid, lookupA st.pageTable pid = some fid →
      ¬ 0 < (getFrame st fid).pin_count →
      (deletePg st pid).1 = true ∧
      (deletePg st pid).2.pageTable = eraseA st.pageTable pid ∧
      (deletePg st pid).2.replacer = removeFrame st.replacer fid ∧
      (deletePg st pid).2.freeList = st.freeList ++ [fid] ∧
      (deletePg st pid).2.frames
        = st.frames.set fid { getFrame st fid with data := 0 } ∧
      (deletePg st pid).2.deallocLog = st.deallocLog ++ [pid] ∧
      (deletePg st pid).2.disk = st.disk ∧
      (deletePg st pid).2.diskWriteLog = st.diskWriteLog ∧
      (deletePg st pid).2.nextPageId = st.nextPageId) := by
  refine ⟨?_, ?_, ?_⟩
  · intro h
    simp [deletePg, h]
  · intro fid h hpin
    simp only [deletePg, h]
    rw [if_pos hpin]
  · intro fid h hpin
    exact deletePg_success_effects st pid fid h hpin

/-- Witness for C7: deleting unmapped page `99` succeeds with no change,
deleting pinned page `7` fails with no change, and deleting unpinned page `8`
succeeds with exactly the claimed effects. -/
theorem deletePg_cases_witness :
    deletePg bpmDel 99 = (true, bpmDel) ∧
    deletePg bpmDel 7 = (false, bpmDel) ∧
    (deletePg bpmDel 8).1 = true ∧
    (deletePg bpmDel 8).2.pageTable = eraseA bpmDel.pageTable 8 ∧
    (deletePg bpmDel 8).2.freeList = [1] ∧
    (deletePg bpmDel 8).2.deallocLog = [8] :=
  ⟨(deletePg_cases bpmDel 99).1 (by decide),
    (deletePg_cases bpmDel 7).2.1 0 (by decide) (by decide),
    ((deletePg_cases bpmDel 8).2.2 1 (by decide) (by decide)).1,
    ((deletePg_cases bpmDel 8).2.2 1 (by decide) (by decide)).2.1,
    by decide, by decide⟩

/-- C9: `DeletePgImp` on a mapped, unpinned, dirty page succeeds *without any
`WritePage` call*: the disk contents and the write trace are untouched (the
unflushed modifications are discarded), the frame's bytes are zeroed and the
page id is handed to `DeallocatePage`. -/
theorem deletePg_discards_dirty_page (st : BPM) (pid : Int) (fid : Nat)
    (h : lookupA st.pageTable pid = some fid)
    (hpin : (getFrame st fid).pin_count = 0)
    (_hdirty : (getFrame st fid).is_dirty = true)
    (hlen : fid < st.frames.length) :
    (deletePg st pid).1 = true ∧
    (deletePg st pid).2.disk = st.disk ∧
    (deletePg st pid).2.diskWriteLog = st.diskWriteLog ∧
    (deletePg st pid).2.deallocLog = st.deallocLog ++ [pid] ∧
    (getFrame (deletePg st pid).2 fid).data = 0 := by
  have hnpin : ¬ 0 < (getFrame st fid).pin_count := by
    rw [hpin]; exact lt_irrefl 0
  have hc := deletePg_success_effects st pid fid h hnpin
  refine ⟨hc.1, hc.2.2.2.2.2.2.1, hc.2.2.2.2.2.2.2.1, hc.2.2.2.2.2.1, ?_⟩
  show ((deletePg st pid).2.frames.getD fid default).data = 0
  rw [hc.2.2.2.2.1, getD_set_self st.frames fid _ hlen]

/-- Witness for C9: deleting the unpinned dirty page `8` of `bpmDel` leaves
the disk and the write trace unchanged. -/
theorem deletePg_discards_dirty_page_witness :
    (deletePg bpmDel 8).1 = true ∧
    (deletePg bpmDel 8).2.disk = bpmDel.disk ∧
    (deletePg bpmDel 8).2.diskWriteLog = bpmDel.diskWriteLog ∧
    (deletePg bpmDel 8).2.deallocLog = bpmDel.deallocLog ++ [8] ∧
    (getFrame (deletePg bpmDel 8).2 1).data = 0 :=
  deletePg_discards_dirty_page bpmDel 8 1 (by decide) (by decide) (by decide)
    (by decide)

/-- C10: `NewPgImp` calls `AllocatePage()` before it looks for a frame, so
with an empty free list and no evictable frame it fails (`none`) while the
next-page-id counter has advanced by one and everything else is unchanged. -/
theorem newPg_failure_still_advances_allocator (st : BPM)
    (hfree : st.freeList = [])
    (hnoev : ∀ p ∈ st.replacer.records, evictableOf st.replacer p.1 = false) :
    newPg st = (none, { st with nextPageId := st.nextPageId + 1 }) := by
  simp [newPg, acquireFrame, hfree, evict_no_evictable st.replacer hnoev]

/-- Witness for C10: `new_page` on the stuck pool fails, yet the allocator
counter moved from `9` to `10`. -/
theorem newPg_failure_still_advances_allocator_witness :
    newPg bpmStuck = (none, { bpmStuck with nextPageId := 10 }) :=
  newPg_failure_still_advances_allocator bpmStuck (by decide) (by decide)

lemma length_takeWhile_le {α : Type} (p : α → Bool) :
    ∀ l : List α, (l.takeWhile p).length ≤ l.length := by
  intro l
  induction l with
  | nil => simp
  | cons a t ih =>
    rw [List.takeWhile_cons]
    split
    · simpa using ih
    · simp

/-- C8 counterexample: the internal node `[(0, 100), (10, 200)]` — exactly the
shape a fresh root gets (zeroed sentinel key at slot 0) — searched for key
`-3` yields position `0` on the not-found branch, so `ValueAt(pos - 1)` reads
index `-1`, contradicting the claim that the access stays within
`[0, size-1]`. -/
theorem internalLookUp_reads_index_minus_one :
    ([(0, 100), (10, 200)] : List InternalEntry).length = 2 ∧
    internalFindPos [(0, 100), (10, 200)] (-3) = 0 ∧
    internalLookUpIdx [(0, 100), (10, 200)] (-3) = -1 ∧
    internalLookUp [(0, 100), (10, 200)] (-3) = none := by
  refine ⟨rfl, rfl, by decide, by decide⟩

/-- C8 amended: for an internal node with `size ≥ 1` whose slot-0 key is at
most the search key, `LookUp` only ever reads an index in `[0, size-1]`. -/
theorem internalLookUpIdx_in_bounds (entries : List InternalEntry) (k : Int)
    (hsz : 1 ≤ entries.length)
    (hsent : (entries.getD 0 (0, 0)).1 ≤ k) :
    0 ≤ internalLookUpIdx entries k ∧
    internalLookUpIdx entries k < (entries.length : Int) := by
  have hle : internalFindPos entries k ≤ entries.length :=
    length_takeWhile_le _ entries
  by_cases hbr : internalFindPos entries k ≠ entries.length ∧
      (entries.getD (internalFindPos entries k) (0, 0)).1 = k
  · rw [internalLookUpIdx, if_pos hbr]
    have hlt : internalFindPos entries k < entries.length :=
      lt_of_le_of_ne hle hbr.1
    exact ⟨Int.ofNat_nonneg _, by exact_mod_cast hlt⟩
  · rw [internalLookUpIdx, if_neg hbr]
    have hpos1 : 1 ≤ internalFindPos entries k := by
      rcases lt_or_eq_of_le hsent with hslt | hseq
      · obtain ⟨e, rest, hcons⟩ : ∃ e rest, entries = e :: rest := by
          cases entries with
          | nil => simp at hsz
          | cons e rest => exact ⟨e, rest, rfl⟩
        subst hcons
        simp only [internalFindPos, List.takeWhile_cons]
        rw [if_pos (by simpa using hslt)]
        simp
      · by_contra hlt
        have hpos0 : internalFindPos entries k = 0 := by omega
        exact hbr ⟨by omega, by rw [hpos0]; exact hseq⟩
    omega

/-- Witness for the amended C8: node `[(1, 100), (10, 200)]`, search key `3`
(slot-0 key `1 ≤ 3`): the access index is within bounds. -/
theorem internalLookUpIdx_in_bounds_witness :
    0 ≤ internalLookUpIdx [(1, 100), (10, 200)] 3 ∧
    internalLookUpIdx [(1, 100), (10, 200)] 3
      < (([(1, 100), (10, 200)] : List InternalEntry).length : Int) :=
  internalLookUpIdx_in_bounds [(1, 100), (10, 200)] 3 (by decide) (by decide)

/-- C5: `insert_into_parent` on the split root builds the new internal root
`[(sentinel 0, left), (sep key, right)]` with size 2, re-parents both halves
and updates `root_page_id_` to `3` — but never touches the header page: its
record still maps `"idx"` to the stale root `1`, while an `UpdateRootPageId(0)`
call (which the source omits) would have rewritten it to `3`. -/
theorem insertIntoParent_root_split_skips_header_update :
    insertIntoParent treeAfterLeafSplit 4 1 2 2 = some
      { store := [(1, .leaf [(1, 10)] 2 3 3), (2, .leaf [(2, 20), (3, 30)] (-1) 3 3),
                  (3, .internal [(0, 1), (2, 2)] (-1) 3)]
        rootId := 3
        nextPid := 4
        leafMax := 3
        internalMax := 3
        name := "idx"
        header := [("idx", 1)] } ∧
    (updateRootPageId
      { store := [(1, .leaf [(1, 10)] 2 3 3), (2, .leaf [(2, 20), (3, 30)] (-1) 3 3),
                  (3, .internal [(0, 1), (2, 2)] (-1) 3)]
        rootId := 3
        nextPid := 4
        leafMax := 3
        internalMax := 3
        name := "idx"
        header := [("idx", 1)] } 0).header = [("idx", 3)] := by
  constructor
  · rfl
  · rfl

lemma sortedStrict_cons (a : Int) (l : List Int)
    (h : sortedStrict (a :: l) = true) : sortedStrict l = true := by
  cases l with
  | nil => rfl
  | cons b t =>
    simp only [sortedStrict, Bool.and_eq_true, decide_eq_true_eq] at h
    exact h.2

lemma sortedStrict_pair (a b : Int) (t : List Int)
    (h : sortedStrict (a :: b :: t) = true) : a < b := by
  simp only [sortedStrict, Bool.and_eq_true, decide_eq_true_eq] at h
  exact h.1

lemma sortedStrict_head_lt (a : Int) (l : List Int)
    (h : sortedStrict (a :: l) = true) : ∀ b ∈ l, a < b := by
  induction l generalizing a with
  | nil => intro b hb; cases hb
  | cons c t ih =>
    intro b hb
    have hac : a < c := sortedStrict_pair a c t h
    rcases List.mem_cons.1 hb with rfl | hb'
    · exact hac
    · exact lt_trans hac (ih c (sortedStrict_cons a _ h) b hb')

lemma leafFindPos_cons_lt (e : LeafEntry) (t : List LeafEntry) (k : Int)
    (h : e.1 < k) : leafFindPos (e :: t) k = leafFindPos t k + 1 := by
  simp [leafFindPos, List.takeWhile_cons, h]

lemma leafFindPos_cons_ge (e : LeafEntry) (t : List LeafEntry) (k : Int)
    (h : ¬ e.1 < k) : leafFindPos (e :: t) k = 0 := by
  simp [leafFindPos, List.takeWhile_cons, h]

/-- On a sorted leaf containing `k`, the lower-bound position lands exactly on
`k`'s slot. -/
lemma leafFindPos_of_mem (entries : List LeafEntry) (k : Int)
    (hs : sortedStrict (entries.map (·.1)) = true)
    (hk : k ∈ entries.map (·.1)) :
    leafFindPos entries k < entries.length ∧
    (entries.getD (leafFindPos entries k) (0, 0)).1 = k := by
  induction entries with
  | nil => cases hk
  | cons e t ih =>
    rw [List.map_cons] at hs hk
    by_cases hlt : e.1 < k
    · have hkt : k ∈ t.map (·.1) := by
        rcases List.mem_cons.1 hk with rfl | h'
        · exact absurd hlt (lt_irrefl _)
        · exact h'
      obtain ⟨ih1, ih2⟩ := ih (sortedStrict_cons _ _ hs) hkt
      rw [leafFindPos_cons_lt e t k hlt]
      exact ⟨Nat.succ_lt_succ ih1, by simpa using ih2⟩
    · have hke : k = e.1 := by
        rcases List.mem_cons.1 hk with rfl | h'
        · rfl
        · exact absurd (sortedStrict_head_lt _ _ hs k h') hlt
      rw [leafFindPos_cons_ge e t k hlt]
      exact ⟨Nat.succ_pos _, hke.symm⟩

/-- Insertion via `BPlusTreeLeafPage::Insert` is a no-op on a key already present. -/
lemma leafInsert_duplicate (entries : List LeafEntry) (k : Int) (v : Nat)
    (hs : sortedStrict (entries.map (·.1)) = true)
    (hk : k ∈ entries.map (·.1)) : leafInsert entries k v = entries := by
  obtain ⟨hlt, hgd⟩ := leafFindPos_of_mem entries k hs hk
  unfold leafInsert
  rw [if_neg (Nat.ne_of_lt hlt), if_pos hgd]

lemma internalFindPos_cons_lt (e : InternalEntry) (t : List InternalEntry)
    (k : Int) (h : e.1 < k) :
    internalFindPos (e :: t) k = internalFindPos t k + 1 := by
  simp [internalFindPos, List.takeWhile_cons, h]

lemma internalFindPos_cons_ge (e : InternalEntry) (t : List InternalEntry)
    (k : Int) (h : ¬ e.1 < k) : internalFindPos (e :: t) k = 0 := by
  simp [internalFindPos, List.takeWhile_cons, h]

lemma internalFindPos_le (entries : List InternalEntry) (k : Int) :
    internalFindPos entries k ≤ entries.length :=
  length_takeWhile_le _ entries

lemma internalLookUp_single (k1 c1 : Int) (k : Int) (h : k1 ≤ k) :
    internalLookUp [(k1, c1)] k = some c1 := by
  by_cases hlt : k1 < k
  · have hpos : internalFindPos [(k1, c1)] k = 1 :=
      internalFindPos_cons_lt (k1, c1) [] k hlt
    simp [internalLookUp, internalLookUpIdx, hpos]
  · have heq : k1 = k := le_antisymm h (not_lt.1 hlt)
    subst heq
    have hpos : internalFindPos [(k1, c1)] k1 = 0 :=
      internalFindPos_cons_ge (k1, c1) [] k1 hlt
    simp [internalLookUp, internalLookUpIdx, hpos]

lemma internalLookUp_cons2_lt (k1 c1 k2 c2 : Int) (t : List InternalEntry)
    (k : Int) (h1 : k1 ≤ k) (h2 : k < k2) :
    internalLookUp ((k1, c1) :: (k2, c2) :: t) k = some c1 := by
  by_cases hlt : k1 < k
  · have hpos : internalFindPos ((k1, c1) :: (k2, c2) :: t) k = 1 := by
      rw [internalFindPos_cons_lt _ _ _ hlt,
        internalFindPos_cons_ge _ _ _ (not_lt.2 (le_of_lt h2))]
    have hcond : ¬ ((1 : Nat) ≠ ((k1, c1) :: (k2, c2) :: t).length ∧
        (((k1, c1) :: (k2, c2) :: t).getD 1 (0, 0)).1 = k) := by
      rintro ⟨-, habs⟩
      simp only [List.getD_cons_succ, List.getD_cons_zero] at habs
      exact (ne_of_gt h2) habs
    rw [internalLookUp, internalLookUpIdx, hpos, if_neg hcond]
    norm_num
    intro habs
    exfalso
    omega
  · have heq : k1 = k := le_antisymm h1 (not_lt.1 hlt)
    have hpos : internalFindPos ((k1, c1) :: (k2, c2) :: t) k = 0 :=
      internalFindPos_cons_ge _ _ _ hlt
    have hcond : ((0 : Nat) ≠ ((k1, c1) :: (k2, c2) :: t).length ∧
        (((k1, c1) :: (k2, c2) :: t).getD 0 (0, 0)).1 = k) := by
      exact ⟨by simp, heq⟩
    rw [internalLookUp, internalLookUpIdx, hpos, if_pos hcond]
    norm_num
    intro habs
    exfalso
    omega

/-- Dropping the head of the search array does not change the routed child
when the head key is already below `k` and the next key is still `≤ k`. -/
lemma internalLookUp_cons (e : InternalEntry) (l : List InternalEntry)
    (k : Int) (he : e.1 < k) (hl : l ≠ [])
    (hfirst : (l.headD (0, 0)).1 ≤ k) :
    internalLookUp (e :: l) k = internalLookUp l k := by
  obtain ⟨f, t, rfl⟩ : ∃ f t, l = f :: t := by
    cases l with
    | nil => exact absurd rfl hl
    | cons f t => exact ⟨f, t, rfl⟩
  set l := f :: t with hldef
  have hlen1 : 1 ≤ l.length := by rw [hldef]; simp
  have hpos_e : internalFindPos (e :: l) k = internalFindPos l k + 1 :=
    internalFindPos_cons_lt e l k he
  have hle : internalFindPos l k ≤ l.length := internalFindPos_le l k
  have hdich : 1 ≤ internalFindPos l k ∨
      (internalFindPos l k = 0 ∧ (l.getD 0 (0, 0)).1 = k) := by
    by_cases hflt : f.1 < k
    · left
      rw [hldef, internalFindPos_cons_lt f t k hflt]
      exact Nat.succ_pos _
    · right
      have : f.1 = k := le_antisymm (by simpa [hldef] using hfirst) (not_lt.1 hflt)
      rw [hldef, internalFindPos_cons_ge f t k hflt]
      exact ⟨rfl, this⟩
  have hgd : ((e :: l).getD (internalFindPos l k + 1) (0, 0))
      = l.getD (internalFindPos l k) (0, 0) := List.getD_cons_succ
  by_cases hc : internalFindPos l k ≠ l.length ∧
      (l.getD (internalFindPos l k) (0, 0)).1 = k
  · have hc' : internalFindPos l k + 1 ≠ (e :: l).length ∧
        ((e :: l).getD (internalFindPos l k + 1) (0, 0)).1 = k := by
      refine ⟨?_, by rw [hgd]; exact hc.2⟩
      simp only [List.length_cons]
      exact fun hcontra => hc.1 (Nat.succ_injective hcontra)
    rw [internalLookUp, internalLookUp, internalLookUpIdx, internalLookUpIdx,
      hpos_e, if_pos hc', if_pos hc]
    have hplt : internalFindPos l k < l.length := lt_of_le_of_ne hle hc.1
    simp only [List.length_cons]
    split_ifs with h1 h2
    · simp only [Int.toNat_natCast, hgd]
    · exact absurd ⟨by omega, by omega⟩ h2
    · exact absurd ⟨by omega, by omega⟩ h1
    · rfl
  · have hp1 : 1 ≤ internalFindPos l k := by
      rcases hdich with h1 | ⟨h0, hk0⟩
      · exact h1
      · exact absurd ⟨by omega, by rw [h0]; exact hk0⟩ hc
    have hc' : ¬ (internalFindPos l k + 1 ≠ (e :: l).length ∧
        ((e :: l).getD (internalFindPos l k + 1) (0, 0)).1 = k) := by
      rintro ⟨hne, hk1⟩
      exact hc ⟨fun hcontra => hne (by simp [hcontra]), by rw [← hgd]; exact hk1⟩
    rw [internalLookUp, internalLookUp, internalLookUpIdx, internalLookUpIdx,
      hpos_e, if_neg hc', if_neg hc]
    have hgd2 : (e :: l).getD (internalFindPos l k) (0, 0)
        = l.getD (internalFindPos l k - 1) (0, 0) := by
      obtain ⟨m, hm⟩ : ∃ m, internalFindPos l k = m + 1 :=
        ⟨internalFindPos l k - 1, by omega⟩
      rw [hm]
      simp only [Nat.add_sub_cancel]
      exact List.getD_cons_succ
    simp only [List.length_cons]
    split_ifs with h1 h2
    · have ht1 : (((internalFindPos l k + 1 : Nat) : Int) - 1).toNat
          = internalFindPos l k := by omega
      have ht2 : (((internalFindPos l k : Nat) : Int) - 1).toNat
          = internalFindPos l k - 1 := by omega
      rw [ht1, ht2, hgd2]
    · exact absurd ⟨by omega, by omega⟩ h2
    · exact absurd ⟨by omega, by omega⟩ h1
    · rfl

/-- Routing: `LookUp` descends into the last child whose slot key is `≤ k`, provided
the slot-0 key is `≤ k`. -/
lemma internalLookUp_eq_chooseChild :
    ∀ (entries : List InternalEntry) (k : Int),
      sortedStrict (entries.map (·.1)) = true →
      entries ≠ [] →
      (entries.headD (0, 0)).1 ≤ k →
      internalLookUp entries k = some (chooseChild entries k) := by
  intro entries
  induction entries with
  | nil => intro k _ h _; exact absurd rfl h
  | cons e t ih =>
    intro k hs _ hhead
    obtain ⟨k1, c1⟩ := e
    cases t with
    | nil =>
      rw [show chooseChild [(k1, c1)] k = c1 from rfl]
      exact internalLookUp_single k1 c1 k (by simpa using hhead)
    | cons f t2 =>
      obtain ⟨k2, c2⟩ := f
      have hk1k2 : k1 < k2 := by
        rw [List.map_cons, List.map_cons] at hs
        exact sortedStrict_pair _ _ _ hs
      rw [show chooseChild ((k1, c1) :: (k2, c2) :: t2) k
          = if k < k2 then c1 else chooseChild ((k2, c2) :: t2) k from rfl]
      by_cases hk2 : k < k2
      · rw [if_pos hk2]
        exact internalLookUp_cons2_lt k1 c1 k2 c2 t2 k (by simpa using hhead) hk2
      · have hk2le : k2 ≤ k := not_lt.1 hk2
        rw [if_neg hk2]
        rw [internalLookUp_cons (k1, c1) ((k2, c2) :: t2) k
          (lt_of_lt_of_le hk1k2 hk2le) (by simp) (by simpa using hk2le)]
        refine ih k ?_ (by simp) (by simpa using hk2le)
        rw [List.map_cons] at hs
        exact sortedStrict_cons _ _ hs

lemma lbOk_of_le (lo : Option Int) (a k : Int) (h : lbOk lo a = true)
    (hak : a ≤ k) : lbOk lo k = true := by
  cases lo with
  | none => rfl
  | some l =>
    simp only [lbOk, decide_eq_true_eq] at h ⊢
    omega

lemma ubOk_of_lt (hi : Option Int) (a k : Int) (h : ubOk hi a = true)
    (hka : k < a) : ubOk hi k = true := by
  cases hi with
  | none => rfl
  | some hv =>
    simp only [ubOk, decide_eq_true_eq] at h ⊢
    omega

/-- Every child entry of a well-formed-children list carries a well-formed
subtree whose lower bound is its own slot key; its upper bound is either the
node's upper bound or another slot key of the node. -/
lemma wfKidsAux_mem (w : Int → Option Int → Option Int → Bool) :
    ∀ (l : List InternalEntry) (hi : Option Int),
      wfKidsAux w l hi = true →
      ∀ e ∈ l, ∃ hi', w e.2 (some e.1) hi' = true ∧
        (hi' = hi ∨ ∃ e' ∈ l, hi' = some e'.1) := by
  intro l
  induction l with
  | nil => intro hi _ e he; cases he
  | cons x rest ih =>
    intro hi hw e he
    cases rest with
    | nil =>
      obtain ⟨kk, c⟩ := x
      have he' := List.mem_singleton.1 he
      subst he'
      exact ⟨hi, by simpa [wfKidsAux] using hw, Or.inl rfl⟩
    | cons y rest2 =>
      obtain ⟨k1, c1⟩ := x
      obtain ⟨k2, c2⟩ := y
      rw [wfKidsAux, Bool.and_eq_true] at hw
      rcases List.mem_cons.1 he with rfl | he'
      · exact ⟨some k2, hw.1, Or.inr ⟨(k2, c2), by simp, rfl⟩⟩
      · obtain ⟨hi', hw', hor⟩ := ih hi hw.2 e he'
        refine ⟨hi', hw', ?_⟩
        rcases hor with rfl | ⟨e', he'', rfl⟩
        · exact Or.inl rfl
        · exact Or.inr ⟨e', List.mem_cons_of_mem _ he'', rfl⟩

/-- All keys of a well-formed subtree lie inside its interval. -/
lemma subtreeKeys_in_bounds (st : Tree) :
    ∀ (fuel : Nat) (pid : Int) (lo hi : Option Int) (k : Int),
      wfAux st fuel pid lo hi = true →
      k ∈ subtreeKeys st fuel pid →
      lbOk lo k = true ∧ ubOk hi k = true := by
  intro fuel
  induction fuel with
  | zero =>
    intro pid lo hi k hw
    rw [wfAux] at hw
    cases hw
  | succ n ih =>
    intro pid lo hi k hw hk
    rw [wfAux] at hw
    rw [subtreeKeys] at hk
    cases hnode : getNode st pid with
    | none => rw [hnode] at hw; cases hw
    | some node =>
      cases node with
      | leaf entries nxt par m =>
        rw [hnode] at hw hk
        rw [Bool.and_eq_true] at hw
        obtain ⟨e, hee, rfl⟩ := List.mem_map.1 hk
        have := List.all_eq_true.1 hw.2 e hee
        rw [Bool.and_eq_true] at this
        exact this
      | internal entries par m =>
        rw [hnode] at hw hk
        simp only [Bool.and_eq_true] at hw
        obtain ⟨⟨⟨hne, hs⟩, hall⟩, hkids⟩ := hw
        obtain ⟨e, hee, hke⟩ := List.mem_flatMap.1 hk
        obtain ⟨hi', hw', hor⟩ := wfKidsAux_mem _ entries hi hkids e hee
        obtain ⟨hlb, hub⟩ := ih e.2 (some e.1) hi' k hw' hke
        have he1k : e.1 ≤ k := by
          simpa [lbOk] using hlb
        constructor
        · have := List.all_eq_true.1 hall e hee
          rw [Bool.and_eq_true] at this
          exact lbOk_of_le lo e.1 k this.1 he1k
        · rcases hor with rfl | ⟨e', he'', rfl⟩
          · exact hub
          · have hke' : k < e'.1 := by simpa [ubOk] using hub
            have := List.all_eq_true.1 hall e' he''
            rw [Bool.and_eq_true] at this
            exact ubOk_of_lt hi e'.1 k this.2 hke'

lemma sortedStrict_headD_le (entries : List InternalEntry) (e : InternalEntry)
    (hs : sortedStrict (entries.map (·.1)) = true) (he : e ∈ entries) :
    (entries.headD (0, 0)).1 ≤ e.1 := by
  cases entries with
  | nil => cases he
  | cons x t =>
    rcases List.mem_cons.1 he with rfl | he'
    · simp
    · have hlt : x.1 < e.1 := by
        rw [List.map_cons] at hs
        exact sortedStrict_head_lt _ _ hs e.1 (List.mem_map_of_mem _ he')
      simp only [List.headD_cons]
      exact le_of_lt hlt

/-- The child `LookUp` descends into really owns the key: `chooseChild` picks
a child whose (well-formed) subtree contains `k`. -/
lemma chooseChild_spec (st : Tree) (n : Nat) :
    ∀ (entries : List InternalEntry) (hi : Option Int) (k : Int),
      sortedStrict (entries.map (·.1)) = true →
      wfKidsAux (fun c lo' hi' => wfAux st n c lo' hi') entries hi = true →
      k ∈ entries.flatMap (fun e => subtreeKeys st n e.2) →
      ∃ lo' hi', wfAux st n (chooseChild entries k) lo' hi' = true ∧
        k ∈ subtreeKeys st n (chooseChild entries k) := by
  intro entries
  induction entries with
  | nil => intro hi k _ _ hk; cases hk
  | cons x rest ih =>
    intro hi k hs hw hk
    cases rest with
    | nil =>
      obtain ⟨kk, c⟩ := x
      rw [show chooseChild [(kk, c)] k = c from rfl]
      refine ⟨some kk, hi, by simpa [wfKidsAux] using hw, ?_⟩
      simpa using hk
    | cons y rest2 =>
      obtain ⟨k1, c1⟩ := x
      obtain ⟨k2, c2⟩ := y
      rw [wfKidsAux, Bool.and_eq_true] at hw
      rw [show chooseChild ((k1, c1) :: (k2, c2) :: rest2) k
          = if k < k2 then c1 else chooseChild ((k2, c2) :: rest2) k from rfl]
      rw [List.flatMap_cons, List.mem_append] at hk
      by_cases hk2 : k < k2
      · rw [if_pos hk2]
        rcases hk with hk | hk
        · exact ⟨some k1, some k2, hw.1, hk⟩
        · exfalso
          obtain ⟨e, hee, hke⟩ := List.mem_flatMap.1 hk
          obtain ⟨hi', hw', -⟩ := wfKidsAux_mem _ _ hi hw.2 e hee
          obtain ⟨hlb, -⟩ := subtreeKeys_in_bounds st n e.2 (some e.1) hi' k hw' hke
          have he1k : e.1 ≤ k := by simpa [lbOk] using hlb
          have hk2e : k2 ≤ e.1 := by
            have := sortedStrict_headD_le ((k2, c2) :: rest2) e
              (by rw [List.map_cons] at hs; exact sortedStrict_cons _ _ hs) hee
            simpa using this
          omega
      · rw [if_neg hk2]
        rcases hk with hk | hk
        · exfalso
          obtain ⟨-, hub⟩ := subtreeKeys_in_bounds st n c1 (some k1) (some k2) k hw.1 hk
          have : k < k2 := by simpa [ubOk] using hub
          exact hk2 this
        · exact ih hi k (by rw [List.map_cons] at hs; exact sortedStrict_cons _ _ hs)
            hw.2 hk

/-- In a well-formed subtree containing `k`, `FindLeaf` reaches a leaf whose
(sorted) entries contain `k`. -/
lemma findLeaf_locates (st : Tree) :
    ∀ (fuel : Nat) (pid : Int) (lo hi : Option Int) (k : Int),
      wfAux st fuel pid lo hi = true →
      k ∈ subtreeKeys st fuel pid →
      ∃ lpid entries nxt par m,
        findLeafAux st k fuel pid = some lpid ∧
        getNode st lpid = some (.leaf entries nxt par m) ∧
        k ∈ entries.map (·.1) ∧
        sortedStrict (entries.map (·.1)) = true := by
  intro fuel
  induction fuel with
  | zero =>
    intro pid lo hi k hw
    rw [wfAux] at hw
    cases hw
  | succ n ih =>
    intro pid lo hi k hw hk
    rw [wfAux] at hw
    rw [subtreeKeys] at hk
    cases hnode : getNode st pid with
    | none => rw [hnode] at hw; cases hw
    | some node =>
      cases node with
      | leaf entries nxt par m =>
        rw [hnode] at hw hk
        rw [Bool.and_eq_true] at hw
        refine ⟨pid, entries, nxt, par, m, ?_, hnode, hk, hw.1⟩
        simp only [findLeafAux, hnode]
      | internal entries par m =>
        rw [hnode] at hw hk
        simp only [Bool.and_eq_true] at hw
        obtain ⟨⟨⟨hne, hs⟩, hall⟩, hkids⟩ := hw
        have hne' : entries ≠ [] := by
          cases entries with
          | nil => cases hne
          | cons a t => exact List.cons_ne_nil a t
        have hhead : (entries.headD (0, 0)).1 ≤ k := by
          obtain ⟨e, hee, hke⟩ := List.mem_flatMap.1 hk
          obtain ⟨hi', hw', -⟩ := wfKidsAux_mem _ entries hi hkids e hee
          obtain ⟨hlb, -⟩ := subtreeKeys_in_bounds st n e.2 (some e.1) hi' k hw' hke
          have he1k : e.1 ≤ k := by simpa [lbOk] using hlb
          exact le_trans (sortedStrict_headD_le entries e hs hee) he1k
        have hlook : internalLookUp entries k = some (chooseChild entries k) :=
          internalLookUp_eq_chooseChild entries k hs hne' hhead
        obtain ⟨lo', hi', hwc, hkc⟩ := chooseChild_spec st n entries hi k hs hkids hk
        obtain ⟨lpid, es, nx, pr, mm, hf, hn, hkk, hss⟩ :=
          ih (chooseChild entries k) lo' hi' k hwc hkc
        refine ⟨lpid, es, nx, pr, mm, ?_, hn, hkk, hss⟩
        simp only [findLeafAux, hnode, hlook]
        exact hf

/-- C6 (amended): in a non-empty tree that is well-formed — strictly
ascending in-node keys, child subtrees inside the parent's key intervals, and
each internal node's slot-0 sentinel key a lower bound of its first child's
subtree — inserting a key that is already present returns `false` and leaves
the whole tree state (every node, the root id, the header, the allocator)
unchanged. -/
theorem insertTree_duplicate_noop (st : Tree) (k : Int) (v : Nat)
    (hroot : ¬ st.rootId = INVALID_PAGE_ID)
    (hwf : wfAux st (st.store.length + 1) st.rootId none none = true)
    (hmem : k ∈ subtreeKeys st (st.store.length + 1) st.rootId) :
    insertTree st k v = some (false, st) := by
  obtain ⟨lpid, entries, nxt, par, m, hfind, hnode, hk, hs⟩ :=
    findLeaf_locates st (st.store.length + 1) st.rootId none none k hwf hmem
  have hfind' : findLeaf st k = some lpid := hfind
  have hins : leafInsert entries k v = entries :=
    leafInsert_duplicate entries k v hs hk
  rw [insertTree, if_neg hroot]
  simp only [insertIntoLeaf, hfind', hnode, hins]
  simp

/-- Witness for C6 (amended): inserting the already-present key `3` into
`treeGood` returns `false` with the state unchanged. -/
theorem insertTree_duplicate_noop_witness :
    insertTree treeGood 3 99 = some (false, treeGood) :=
  insertTree_duplicate_noop treeGood 3 99 (by decide) (by decide) (by decide)

/-- The claim "insert of a present key returns false with no side effects"
fails on `treeBad`: the key `-3` is present, the tree is non-empty, but the
insert aborts in the descent with an out-of-bounds child access instead of
returning `false` with the tree unchanged. -/
theorem insertTree_duplicate_counterexample :
    treeBad.rootId ≠ INVALID_PAGE_ID ∧
    (-3) ∈ subtreeKeys treeBad (treeBad.store.length + 1) treeBad.rootId ∧
    insertTree treeBad (-3) 30 = none := by
  refine ⟨by decide, by decide, by decide⟩

/-- C3: for the right-neighbor case, redistribution between leaves
`node = [(1,10)]` and `sibling = [(5,50),(6,60),(7,70)]` (sibling above
`min_size`): the code moves the sibling's *second* entry `(6,60)` into `node`
(duplicating it) and discards the sibling's first entry `(5,50)`, so the
combined multiset of the two leaves is *not* preserved, contrary to the claim
that exactly the sibling's first entry is moved. -/
theorem redistributeLeaf_from_next_loses_first_entry :
    redistributeLeaf [(5, 50), (6, 60), (7, 70)] [(1, 10)]
        [(0, 100), (5, 200)] 0 false
      = ([(6, 60), (7, 70)], [(1, 10), (6, 60)], [(0, 100), (6, 200)]) ∧
    ¬ List.Perm
        ([(1, 10), (6, 60)] ++ [(6, 60), (7, 70)] : List LeafEntry)
        ([(1, 10)] ++ [(5, 50), (6, 60), (7, 70)]) := by
  constructor
  · rfl
  · decide

end Bustub
